import Mathlib

set_option maxHeartbeats 1000000

namespace AgenticWorkflow

/-! # Shallow embedding of the UI-enhancement agent

Text buffers, paths and messages are represented as `List Char`.
The filesystem is a partial map from (repo-relative) paths to file contents.
Recursive scanners that skip a variable number of characters use an explicit
fuel argument equal to the input length, so that every definition reduces in
the kernel; the natural recurrences are proved as lemmas below. -/

/-- String literal to the character-list representation used throughout. -/
def toL (s : String) : List Char := s.toList

/-- Number of occurrences of a character. -/
def countC (c : Char) : List Char → Nat
  | [] => 0
  | a :: rest => (if a = c then 1 else 0) + countC c rest

/-- Python substring test `needle in hay`. -/
def occurs (needle : List Char) : List Char → Bool
  | [] => needle.isPrefixOf []
  | a :: rest => needle.isPrefixOf (a :: rest) || occurs needle rest

/-- Python `str.lower` (ASCII behaviour). -/
def lowerL (s : List Char) : List Char := s.map Char.toLower

/-- Index of the last occurrence of a character. -/
def lastIdxOf (c : Char) : List Char → Option Nat
  | [] => none
  | a :: rest =>
    match lastIdxOf c rest with
    | some i => some (i + 1)
    | none => if a = c then some 0 else none

/-- Fuel-indexed core of Python `str.replace` (replace every non-overlapping
occurrence of `old` by `new`, scanning left to right). -/
def pyReplaceGo (old new : List Char) : Nat → List Char → List Char
  | _, [] => []
  | 0, s => s
  | fuel + 1, a :: rest =>
    if !old.isEmpty && old.isPrefixOf (a :: rest) then
      new ++ pyReplaceGo old new fuel ((a :: rest).drop old.length)
    else
      a :: pyReplaceGo old new fuel rest

/-- Python `s.replace(old, new)`.  Every call site in the source passes a
non-empty `old`; an empty `old` is treated as matching nowhere. -/
def pyReplace (s old new : List Char) : List Char := pyReplaceGo old new s.length s

-- Sanity checks of the embedding on concrete data.
example : pyReplace (toL "ababa") (toL "ab") (toL "x") = toL "xxa" := by decide
example : occurs (toL "bc") (toL "abcd") = true := by decide
example : occurs (toL "bd") (toL "abcd") = false := by decide

/-! ## Delimiter validation (src/tools/modify_ui_file.py, `validate_syntax`) -/

/-- The closing bracket expected for an opener, following the source's
`brackets = {'(': ')', '[': ']', '{': '}'}` lookup. -/
def brClose (c : Char) : Char := if c = '(' then ')' else if c = '[' then ']' else '}'

def isOpenBr (c : Char) : Bool := c = '(' || c = '[' || c = '{'

def isCloseBr (c : Char) : Bool := c = ')' || c = ']' || c = '}'

/-- Structured form of the diagnostic messages produced by `validate_syntax`;
each constructor stands for one message format together with its interpolated
data. -/
inductive Diag where
  | ok
  | unexpectedClosing (c : Char) (line col : Nat)
  | mismatched (line col : Nat)
  | unclosed (c : Char) (line col : Nat)
  | fixedIfParen
  | removedAstroDirectives
deriving DecidableEq

instance {ε α : Type} [DecidableEq ε] [DecidableEq α] : DecidableEq (Except ε α) :=
  fun x y =>
  match x, y with
  | Except.ok a, Except.ok b =>
    if h : a = b then isTrue (by rw [h])
    else isFalse (by intro he; cases he; exact h rfl)
  | Except.ok _, Except.error _ => isFalse (by intro h; cases h)
  | Except.error _, Except.ok _ => isFalse (by intro h; cases h)
  | Except.error a, Except.error b =>
    if h : a = b then isTrue (by rw [h])
    else isFalse (by intro he; cases he; exact h rfl)

/-- The source updates `(line_num, col_num)` before inspecting the character:
a newline resets the column to 1, any other character increments it. -/
def stepPos (p : Nat × Nat) (c : Char) : Nat × Nat :=
  if c = '\n' then (p.1 + 1, 1) else (p.1, p.2 + 1)

/-- The character scan of `validate_syntax` (lines 13-40): a stack of
`(opener, line, column)` entries, pushed on openers, popped on matching
closers, with the position updated before each check. -/
def scanBrackets : List Char → List (Char × Nat × Nat) → Nat × Nat →
    Except Diag (List (Char × Nat × Nat))
  | [], stack, _ => Except.ok stack
  | c :: rest, stack, p =>
    let q := stepPos p c
    if isOpenBr c then
      scanBrackets rest ((c, q.1, q.2) :: stack) q
    else if isCloseBr c then
      match stack with
      | [] => Except.error (Diag.unexpectedClosing c q.1 q.2)
      | (o, _, _) :: stack2 =>
        if brClose o = c then scanBrackets rest stack2 q
        else Except.error (Diag.mismatched q.1 q.2)
    else scanBrackets rest stack q

example : scanBrackets (toL "a{b}") [] (1, 1) = Except.ok [] := by decide
example : scanBrackets (toL "\x7b") [] (1, 1) = Except.ok [('{', 1, 2)] := by decide
example : scanBrackets (toL "\x7b\n(") [] (1, 1) =
    Except.ok [('(', 2, 2), ('{', 1, 2)] := by decide
example : scanBrackets (toL "(]") [] (1, 1) =
    Except.error (Diag.mismatched 1 3) := by decide

/-- Python `\s` on ASCII input. -/
def isPySpace (c : Char) : Bool :=
  c = ' ' || c = '\t' || c = '\n' || c = '\r' ||
    c = Char.ofNat 12 || c = Char.ofNat 11

/-- Leftmost-greedy match of the pattern for an `if (` header that reaches a
block brace before any closing parenthesis: literal `if`, then spaces, then
`(`, then any run without `)`, ending at the last `{` of that run. -/
def matchIfPat (s : List Char) : Option (List Char) :=
  match s with
  | 'i' :: 'f' :: rest =>
    match rest.drop (rest.takeWhile isPySpace).length with
    | '(' :: rest3 =>
      match lastIdxOf '{' (rest3.takeWhile (fun c => !(c = ')'))) with
      | some k =>
        some ('i' :: 'f' :: (rest.takeWhile isPySpace ++
          '(' :: (rest3.takeWhile (fun c => !(c = ')'))).take (k + 1)))
      | none => none
    | _ => none
  | _ => none

example : matchIfPat (toL "if (x \x7b") = some (toL "if (x \x7b") := by decide
example : matchIfPat (toL "if (a) \x7b") = none := by decide
example : matchIfPat (toL "if (a\x7bb\x7b c") = some (toL "if (a\x7bb\x7b") := by decide

/-- Fuel-indexed core of the `re.findall` scan for the `if (`-header pattern:
matches are collected left to right and the scan resumes after each match. -/
def findAllIfGo : Nat → List Char → List (List Char)
  | _, [] => []
  | 0, _ => []
  | fuel + 1, a :: rest =>
    match matchIfPat (a :: rest) with
    | some m => m :: findAllIfGo fuel ((a :: rest).drop m.length)
    | none => findAllIfGo fuel rest

def findAllIf (s : List Char) : List (List Char) := findAllIfGo s.length s

example : findAllIf (toL "x if (a \x7b y") = [toL "if (a \x7b"] := by decide
example : findAllIf (toL "if (a) { }") = [] := by decide

/-- The loop body's test `'(' in if_stmt and ')' not in if_stmt`. -/
def jsFixCond (m : List Char) : Bool := m.contains '(' && !(m.contains ')')

/-- `if_stmt.replace('{', ') {')`. -/
def fixIfStmt (m : List Char) : List Char := pyReplace m (toL "\x7b") (toL ") \x7b")

/-! ### Astro client-directive handling -/

def directiveWords : List (List Char) :=
  [toL "load", toL "visible", toL "only", toL "media", toL "idle"]

def fullDirectives : List (List Char) :=
  [toL "client:load", toL "client:visible", toL "client:only",
   toL "client:media", toL "client:idle"]

/-- Match length, at the head of `s`, of the first substitution pattern:
a directive with a quoted value. -/
def matchDirAssignLen (s : List Char) : Option Nat :=
  if (toL "client:").isPrefixOf s then
    match directiveWords.find? (fun d => d.isPrefixOf (s.drop 7)) with
    | some d =>
      match (s.drop 7).drop d.length with
      | '=' :: '"' :: rest2 =>
        let v := rest2.takeWhile (fun c => !(c = '"'))
        match rest2.drop v.length with
        | '"' :: _ => some (7 + d.length + 2 + v.length + 1)
        | _ => none
      | _ => none
    | none => none
  else none

/-- Match length, at the head of `s`, of the second substitution pattern:
a bare directive. -/
def matchDirLen (s : List Char) : Option Nat :=
  if (toL "client:").isPrefixOf s then
    match directiveWords.find? (fun d => d.isPrefixOf (s.drop 7)) with
    | some d => some (7 + d.length)
    | none => none
  else none

/-- Fuel-indexed `re.sub(pattern, '', s)` for a pattern given by a
head-match length function; all matches used here have positive length. -/
def removeMatchesGo (mlen : List Char → Option Nat) : Nat → List Char → List Char
  | _, [] => []
  | 0, s => s
  | fuel + 1, a :: rest =>
    match mlen (a :: rest) with
    | some n =>
      if 0 < n then removeMatchesGo mlen fuel ((a :: rest).drop n)
      else a :: removeMatchesGo mlen fuel rest
    | none => a :: removeMatchesGo mlen fuel rest

def removeMatches (mlen : List Char → Option Nat) (s : List Char) : List Char :=
  removeMatchesGo mlen s.length s

/-- The two `re.sub` calls stripping Astro client directives. -/
def astroSub (s : List Char) : List Char :=
  removeMatches matchDirLen (removeMatches matchDirAssignLen s)

/-- The trigger condition: `"client:" in content` and one of the five full
directive strings occurs. -/
def astroDirCond (content : List Char) : Bool :=
  occurs (toL "client:") content &&
    fullDirectives.any (fun d => occurs d content)

example : astroSub (toL "a client:load b") = toL "a  b" := by decide
example : astroSub (toL "<X client:visible=\"idle\" />") = toL "<X  />" := by decide

/-- `validate_astro_file` (lines 71-83). -/
def validate_astro_file (content : List Char) : Bool × List Char :=
  if astroDirCond content then (false, astroSub content) else (true, content)

/-- The trailing Astro-specific branch of `validate_syntax` (lines 56-68),
also reached when the script branch finds nothing to fix. -/
def astroPart (file_path content : List Char) : Bool × List Char × Diag :=
  if (toL ".astro").isSuffixOf file_path && astroDirCond content then
    (false, astroSub content, Diag.removedAstroDirectives)
  else (true, content, Diag.ok)

/-- `validate_syntax` (lines 8-68): bracket scan, then for `.js`/`.jsx`
paths a best-effort fix of an `if (` header missing its `)`, then for
`.astro` paths removal of client directives. -/
def validate_syntax_fn (file_path content : List Char) : Bool × List Char × Diag :=
  match scanBrackets content [] (1, 1) with
  | Except.error d => (false, content, d)
  | Except.ok stack =>
    match stack with
    | (o, l, k) :: _ => (false, content, Diag.unclosed o l k)
    | [] =>
      if (toL ".js").isSuffixOf file_path || (toL ".jsx").isSuffixOf file_path then
        match (findAllIf content).find? jsFixCond with
        | some m => (false, pyReplace content m (fixIfStmt m), Diag.fixedIfParen)
        | none => astroPart file_path content
      else astroPart file_path content

example : validate_syntax_fn (toL "a.txt") (toL "a{b}") = (true, toL "a{b}", Diag.ok) := by
  decide
example : validate_syntax_fn (toL "a.txt") (toL "\x7b") =
    (false, toL "\x7b", Diag.unclosed '{' 1 2) := by decide
example : validate_syntax_fn (toL "a.js") (toL "if (x { } )") =
    (false, toL "if (x ) { } )", Diag.fixedIfParen) := by decide
example : validate_syntax_fn (toL "a.astro") (toL "client:load") =
    (false, [], Diag.removedAstroDirectives) := by decide

/-! ## Safety-checked writer (src/tools/modify_ui_file.py, `modify_ui_file`)

The filesystem is a partial map from repo-relative paths to contents; the
`repo_dir` prefix of `os.path.join` is folded into the keys.  Exceptional
I/O (backup or write raising) has no counterpart in the pure model; the
reachable control flow of lines 87-156 is embedded. -/

def FS : Type := List Char → Option (List Char)

def fsWrite (fs : FS) (p c : List Char) : FS :=
  fun q => if q = p then some c else fs q

/-- `full_path + ".bak"`. -/
def bakPath (p : List Char) : List Char := p ++ toL ".bak"

inductive MutErr where
  /-- the message `File {file_path} does not exist` -/
  | fileNotFound (path : List Char)
deriving DecidableEq

structure MutationOutcome where
  success : Bool
  errorKind : Option MutErr
  backupPath : Option (List Char)
deriving DecidableEq

/-- Lines 111-117: empty or absent enhanced content falls back to the
original content. -/
def chooseContent (original : List Char) : Option (List Char) → List Char
  | none => original
  | some e => if e = [] then original else e

/-- Lines 126-130: Astro files get their client directives stripped before
validation. -/
def preValidate (file_path c : List Char) : List Char :=
  if (toL ".astro").isSuffixOf file_path then (validate_astro_file c).2 else c

/-- Lines 132-143: validate; on failure adopt the returned buffer and
re-validate once; if still invalid fall back to the original content. -/
def finalContent (file_path original t2 : List Char) : List Char :=
  match validate_syntax_fn file_path t2 with
  | (true, _, _) => t2
  | (false, fixed, _) =>
    match validate_syntax_fn file_path fixed with
    | (true, _, _) => fixed
    | (false, _, _) => original

/-- `modify_ui_file` (lines 87-156): existence check, backup to
`path + ".bak"`, content selection, Astro pre-pass, validation with one fix
attempt, write, success result carrying the backup path. -/
def modify_ui_file (fs : FS) (file_path : List Char)
    (enhanced_content : Option (List Char)) : FS × MutationOutcome :=
  match fs file_path with
  | none => (fs, ⟨false, some (MutErr.fileNotFound file_path), none⟩)
  | some original =>
    let fs1 := fsWrite fs (bakPath file_path) original
    let t2 := preValidate file_path (chooseContent original enhanced_content)
    (fsWrite fs1 file_path (finalContent file_path original t2),
      ⟨true, none, some (bakPath file_path)⟩)

/-! ## File classifier (src/tools/scan_for_ui_files.py) -/

/-- The basename of a POSIX path: the segment after the last `/`. -/
def baseName (p : List Char) : List Char :=
  match lastIdxOf '/' p with
  | none => p
  | some i => p.drop (i + 1)

/-- The extension part of Python `os.path.splitext` applied to a basename:
everything from the last dot, unless every character before that dot is
itself a dot. -/
def splitextExt (name : List Char) : List Char :=
  match lastIdxOf '.' name with
  | none => []
  | some i => if (name.take i).all (fun c => c = '.') then [] else name.drop i

/-- `os.path.splitext(p)[1].lower()`. -/
def extOf (p : List Char) : List Char := lowerL (splitextExt (baseName p))

example : extOf (toL "a.styled.js") = toL ".js" := by decide
example : extOf (toL "dir.d/noext") = [] := by decide
example : extOf (toL ".bashrc") = [] := by decide
example : extOf (toL "A.CSS") = toL ".css" := by decide

inductive Category where
  | markup | style | script | animation | asset
deriving DecidableEq

/-- The `ui_extensions` table, in declaration order. -/
def ui_extensions : List (Category × List (List Char)) :=
  [ (Category.markup,
      [toL ".html", toL ".jsx", toL ".tsx", toL ".vue", toL ".svelte",
       toL ".astro", toL ".ejs"]),
    (Category.style,
      [toL ".css", toL ".scss", toL ".sass", toL ".less", toL ".styled.js",
       toL ".style.js"]),
    (Category.script, [toL ".js", toL ".ts", toL ".mjs", toL ".cjs"]),
    (Category.animation, [toL ".js", toL ".ts", toL ".css", toL ".scss"]),
    (Category.asset, [toL ".svg", toL ".jpg", toL ".png", toL ".webp"]) ]

/-- Lines 87-96: the first table entry whose extension list contains the
file's extension. -/
def fileCategory (ext : List Char) : Option Category :=
  (ui_extensions.find? (fun ce => ce.2.contains ext)).map (fun ce => ce.1)

example : fileCategory (toL ".js") = some Category.script := by decide
example : fileCategory (toL ".css") = some Category.style := by decide
example : fileCategory (toL ".astro") = some Category.markup := by decide
example : fileCategory (toL ".py") = none := by decide

inductive Aspect where
  | theme | animation | layout | component | navigation | performance | other
deriving DecidableEq, Fintype

/-- Declaration position of each aspect in the `ui_keywords` dict (with
`other`, which has no keywords, last). -/
def aspectIdx : Aspect → Nat
  | Aspect.theme => 0
  | Aspect.animation => 1
  | Aspect.layout => 2
  | Aspect.component => 3
  | Aspect.navigation => 4
  | Aspect.performance => 5
  | Aspect.other => 6

/-- The `ui_keywords` entry for each aspect (empty for `other`). -/
def keywordsOf : Aspect → List (List Char)
  | Aspect.theme =>
      [toL "theme", toL "color", toL "palette", toL "dark", toL "light",
       toL "style", toL "brand"]
  | Aspect.animation =>
      [toL "animation", toL "transition", toL "motion", toL "gsap",
       toL "animate", toL "keyframe"]
  | Aspect.layout =>
      [toL "layout", toL "grid", toL "flex", toL "container",
       toL "responsive", toL "mobile"]
  | Aspect.component =>
      [toL "component", toL "button", toL "input", toL "form", toL "card",
       toL "modal", toL "dialog"]
  | Aspect.navigation =>
      [toL "nav", toL "menu", toL "link", toL "route", toL "path",
       toL "drawer", toL "sidebar"]
  | Aspect.performance =>
      [toL "performance", toL "loading", toL "lazy", toL "optimize",
       toL "cache"]
  | Aspect.other => []

/-- The `ui_keywords` dict in iteration order. -/
def ui_keywords : List (Aspect × List (List Char)) :=
  [ (Aspect.theme, keywordsOf Aspect.theme),
    (Aspect.animation, keywordsOf Aspect.animation),
    (Aspect.layout, keywordsOf Aspect.layout),
    (Aspect.component, keywordsOf Aspect.component),
    (Aspect.navigation, keywordsOf Aspect.navigation),
    (Aspect.performance, keywordsOf Aspect.performance) ]

/-- Lines 107-111: `path_matches * 3 + content_matches`, both counted
case-insensitively. -/
def aspectScore (kws : List (List Char)) (path content : List Char) : Nat :=
  3 * kws.countP (fun kw => occurs (lowerL kw) (lowerL path)) +
    kws.countP (fun kw => occurs (lowerL kw) (lowerL content))

/-- Score of one aspect for a file. -/
def scoreA (a : Aspect) (path content : List Char) : Nat :=
  aspectScore (keywordsOf a) path content

/-- Lines 113-115: keep the running best, replacing it only on a strictly
larger total. -/
def selectStep (path content : List Char) (best : Option Aspect × Nat)
    (e : Aspect × List (List Char)) : Option Aspect × Nat :=
  if best.2 < aspectScore e.2 path content then (some e.1, aspectScore e.2 path content)
  else best

/-- The loop of lines 104-115 over `ui_keywords`. -/
def selectAspect (path content : List Char) : Option Aspect × Nat :=
  ui_keywords.foldl (selectStep path content) (none, 0)

/-- Lines 125-130: an aspect is kept only with a positive score, otherwise
the file lands in `other`. -/
def fileAspect (path content : List Char) : Aspect :=
  match selectAspect path content with
  | (some a, m) => if 0 < m then a else Aspect.other
  | (none, _) => Aspect.other

example : fileAspect (toL "nav") [] = Aspect.navigation := by decide
example : fileAspect (toL "x") (toL "y") = Aspect.other := by decide

structure FileEntry where
  path : List Char
  extension : List Char
  category : Category
  size : Nat
  aspect : Aspect
deriving DecidableEq

/-- The per-file step of `scan_for_ui_files` (lines 76-133): size filter,
extension lookup, then a read that may fail (`readResult = none` stands for
the `except` branch at line 132, which skips the file); surviving files get
an aspect and enter the inventory. -/
def processFile (relPath base : List Char) (size : Nat)
    (readResult : Option (List Char)) : Option FileEntry :=
  if 1000000 < size || size = 0 then none
  else
    match fileCategory (extOf base) with
    | none => none
    | some cat =>
      match readResult with
      | none => none
      | some content =>
        some ⟨relPath, extOf base, cat, size, fileAspect relPath content⟩

/-! ## Verification pass (src/tools/verify_ui_changes.py) and the revert
selection of `verify_changes` (src/agent.py lines 709-734) -/

inductive Severity where
  | high | medium
deriving DecidableEq

structure Issue where
  file : List Char
  issue : List Char
  severity : Severity
deriving DecidableEq

/-- The apostrophe character used by the source's f-strings around
interpolated brackets. -/
def apos : Char := Char.ofNat 39

/-- Python `str(n)` for a natural number. -/
def natChars (n : Nat) : List Char := Nat.toDigits 10 n

/-- Python `str` of a list of naturals, e.g. `[3, 7]`. -/
def renderPositions (ps : List Nat) : List Char :=
  '[' :: (List.intercalate (toL ", ") (ps.map natChars)) ++ [']']

/-- The bracket loop of `verify_ui_changes` (lines 74-90): enumerate
characters by index, `break` after the first unexpected-closing or mismatch
issue; returns the issues raised inside the loop and the stack left behind. -/
def verifyJsScan : List Char → Nat → List (Char × Nat) →
    List (List Char) × List (Char × Nat)
  | [], _, stack => ([], stack)
  | c :: rest, i, stack =>
    if isOpenBr c then verifyJsScan rest (i + 1) ((c, i) :: stack)
    else if isCloseBr c then
      match stack with
      | [] =>
        ([toL "Unexpected closing bracket " ++ [apos, c, apos] ++
            toL " at position " ++ natChars i], [])
      | (o, _) :: stack2 =>
        if brClose o = c then verifyJsScan rest (i + 1) stack2
        else
          ([toL "Mismatched brackets: " ++ [apos, o, apos] ++ toL " and " ++
              [apos, c, apos]], stack2)
    else verifyJsScan rest (i + 1) stack

/-- Lines 74-94: loop issues plus, when the stack is non-empty afterwards
(also after a `break`), the unclosed-brackets issue listing the stacked
positions in push order. -/
def jsSyntaxIssues (content : List Char) : List (List Char) :=
  (verifyJsScan content 0 []).1 ++
    (if (verifyJsScan content 0 []).2 = [] then []
     else
       [toL "Unclosed brackets at positions: " ++
         renderPositions (((verifyJsScan content 0 []).2.map
           (fun e => e.2)).reverse)])

def jsVerifyExts : List (List Char) :=
  [toL ".js", toL ".jsx", toL ".ts", toL ".tsx"]

/-- The per-file syntax check of `verify_ui_changes`, JavaScript and CSS
branches (lines 67-147); the HTML branch (lines 150-174) is not modelled as
no claim depends on it.  The file has already been read successfully. -/
def verifyFileIssues (file_path content : List Char) : List Issue :=
  if jsVerifyExts.contains (extOf file_path) then
    match jsSyntaxIssues content with
    | [] => []
    | si =>
      [⟨file_path, toL "Syntax issues: " ++ List.intercalate (toL "; ") si,
        Severity.high⟩]
  else if extOf file_path = toL ".css" || extOf file_path = toL ".scss" then
    if countC '{' content = countC '}' content then []
    else
      [⟨file_path,
        toL "CSS syntax issues: Mismatched braces: " ++
          natChars (countC '{' content) ++ toL " opening vs " ++
          natChars (countC '}' content) ++ toL " closing",
        Severity.high⟩]
  else []

/-- agent.py lines 721-722: the files selected for automatic revert are
those whose issue text contains the substring `syntax error`
(case-insensitively). -/
def filesToRevert (issues : List Issue) : List (List Char) :=
  (issues.filter (fun i => occurs (toL "syntax error") (lowerL i.issue))).map
    (fun i => i.file)

example :
    verifyFileIssues (toL "a.jsx") (toL "(\x7d") =
      [⟨toL "a.jsx",
        toL "Syntax issues: Mismatched brackets: " ++ [apos, '(', apos] ++
          toL " and " ++ [apos, '}', apos],
        Severity.high⟩] := by decide

/-! ## Orchestrator mutation step (src/agent.py, `implement_enhancements`,
lines 498-673) -/

inductive Phase where
  | clone_repo | scan_ui_files | analyze_ui | identify_opportunities
  | generate_plan | implement_enhancements | verify_changes | summarize
  | complete
deriving DecidableEq

structure FileTask where
  path : List Char
  enhancement_type : List Char
  changes : List Char
deriving DecidableEq

structure EnhancedFile where
  path : List Char
  enhancement_type : List Char
  success : Bool
  error : Option (List Char)
deriving DecidableEq

/-- The fields of the run record that the mutation loop reads or writes;
the append-only log is write-only (never read by logic) and not modelled. -/
structure AgentState where
  phase : Phase
  files_to_enhance : List FileTask
  current_file_index : Nat
  enhanced_files : List EnhancedFile
deriving DecidableEq

/-- The external effects of one mutation attempt, abstracted per target:
the existence check (line 526), the read (line 541), and the
`modify_ui_file` invocation with its JSON parse (lines 615-673). -/
inductive PerFileOutcome where
  | fileMissing
  | readFailed
  | modifyReturned (success : Bool) (error : Option (List Char))
  | modifyResultUnparsable
  | enhanceRaised
deriving DecidableEq

/-- One step of `implement_enhancements`: when the cursor has reached the
end, move to verification; otherwise attempt the current target and advance
the cursor by one whatever the outcome.  On the two early-skip outcomes the
phase field is left untouched, exactly as in the source. -/
def implementStep (oracle : Nat → PerFileOutcome) (st : AgentState) : AgentState :=
  if st.files_to_enhance.length ≤ st.current_file_index then
    { st with phase := Phase.verify_changes }
  else
    match oracle st.current_file_index with
    | PerFileOutcome.fileMissing =>
      { st with current_file_index := st.current_file_index + 1 }
    | PerFileOutcome.readFailed =>
      { st with current_file_index := st.current_file_index + 1 }
    | PerFileOutcome.modifyReturned ok err =>
      { st with
        current_file_index := st.current_file_index + 1,
        enhanced_files := st.enhanced_files ++
          [⟨(st.files_to_enhance.getD st.current_file_index ⟨[], [], []⟩).path,
            (st.files_to_enhance.getD st.current_file_index ⟨[], [], []⟩).enhancement_type,
            ok,
            if ok then none else some (err.getD (toL "Unknown error"))⟩],
        phase := Phase.implement_enhancements }
    | PerFileOutcome.modifyResultUnparsable =>
      { st with
        current_file_index := st.current_file_index + 1,
        phase := Phase.implement_enhancements }
    | PerFileOutcome.enhanceRaised =>
      { st with
        current_file_index := st.current_file_index + 1,
        phase := Phase.implement_enhancements }

/-! ## Specification-side definitions

`balancedFrom` follows the spec's words for "round, square, and curly
brackets are balanced" with a plain stack of openers, independent of the
position bookkeeping of the source's scanner. -/

def balancedFrom : List Char → List Char → Bool
  | stack, [] => stack.isEmpty
  | stack, c :: rest =>
    if isOpenBr c then balancedFrom (c :: stack) rest
    else if isCloseBr c then
      match stack with
      | [] => false
      | o :: st2 => brClose o = c && balancedFrom st2 rest
    else balancedFrom stack rest

/-- Balanced round/square/curly brackets, per the spec's wording. -/
def balancedB (s : List Char) : Bool := balancedFrom [] s

example : balancedB (toL "a(b[c]{d})") = true := by decide
example : balancedB (toL "a(]") = false := by decide

/-! ## Claim theorems and supporting lemmas -/

/-- C7: a path that does not exist yields a failure outcome with the
file-does-not-exist error (the message `File {path} does not exist`), and
the filesystem is returned untouched: no backup is created and nothing is
written. -/
theorem missing_file_no_side_effect (fs : FS) (p : List Char)
    (e : Option (List Char)) (h : fs p = none) :
    (modify_ui_file fs p e).1 = fs ∧
    (modify_ui_file fs p e).2 =
      ⟨false, some (MutErr.fileNotFound p), none⟩ := by
  simp [modify_ui_file, h]

def fsEmpty : FS := fun _ => none

theorem missing_file_no_side_effect_witness :
    (modify_ui_file fsEmpty (toL "a.txt") (some (toL "x"))).1 = fsEmpty ∧
    (modify_ui_file fsEmpty (toL "a.txt") (some (toL "x"))).2 =
      ⟨false, some (MutErr.fileNotFound (toL "a.txt")), none⟩ :=
  missing_file_no_side_effect fsEmpty (toL "a.txt") (some (toL "x")) rfl

/-- C9: a file whose content cannot be read and decoded is omitted from the
inventory no matter its path, size or extension; and `.jpg` does have a
matching extension category (`asset`), so only the failed read keeps such
binary assets out. -/
theorem unreadable_file_skipped (relPath base : List Char) (size : Nat) :
    processFile relPath base size none = none ∧
    fileCategory (extOf (toL "photo.jpg")) = some Category.asset := by
  constructor
  · rcases h : fileCategory (extOf base) with _ | cat <;>
      simp [processFile, h]
  · decide

/-- C5: when validation of the transformed content fails and the returned
buffer still fails the single re-validation, the buffer written to disk is
the original pre-call content and the operation still reports success. -/
theorem writer_double_invalid_falls_back (fs : FS) (p : List Char)
    (e : Option (List Char)) (orig fixed : List Char) (d : Diag)
    (h : fs p = some orig)
    (h1 : validate_syntax_fn p (preValidate p (chooseContent orig e)) =
      (false, fixed, d))
    (h2 : (validate_syntax_fn p fixed).1 = false) :
    (modify_ui_file fs p e).1 p = some orig ∧
    (modify_ui_file fs p e).2.success = true := by
  rcases hv : validate_syntax_fn p fixed with ⟨b, z⟩
  have hb : b = false := by rw [hv] at h2; exact h2
  subst hb
  simp [modify_ui_file, h, finalContent, h1, hv, fsWrite]

def fsPlain : FS := fun q => if q = toL "a.txt" then some (toL "ok") else none

theorem writer_double_invalid_falls_back_witness :
    (modify_ui_file fsPlain (toL "a.txt") (some (toL "("))).1 (toL "a.txt") =
      some (toL "ok") ∧
    (modify_ui_file fsPlain (toL "a.txt") (some (toL "("))).2.success = true :=
  writer_double_invalid_falls_back fsPlain (toL "a.txt") (some (toL "("))
    (toL "ok") (toL "(") (Diag.unclosed '(' 1 2) (by decide) (by decide)
    (by decide)

/-- C1 (evidence for a code bug): `verify_ui_changes` flags a `.jsx` file
with mismatched braces with a single `high`-severity issue whose text reads
`Syntax issues: ...`, yet the revert selection of `verify_changes`, which
filters on the substring `syntax error`, selects no file — so the automatic
revert never runs. -/
theorem verify_syntax_issue_never_triggers_revert :
    verifyFileIssues (toL "a.jsx") (toL "(\x7d") =
      [⟨toL "a.jsx",
        toL "Syntax issues: Mismatched brackets: " ++ [apos, '(', apos] ++
          toL " and " ++ [apos, '}', apos], Severity.high⟩] ∧
    filesToRevert (verifyFileIssues (toL "a.jsx") (toL "(\x7d")) = [] := by
  decide

/-- C3 counterexample: for the text `{` the single unclosed brace sits at
line 1, column 1, but the diagnostic says column 2; for `{\n(` the earliest
still-open delimiter is the `{` at line 1, column 1, but the diagnostic
names the later `(` instead. -/
theorem unclosed_position_counterexample :
    validate_syntax_fn (toL "a.txt") (toL "\x7b") =
      (false, toL "\x7b", Diag.unclosed '{' 1 2) ∧
    validate_syntax_fn (toL "a.txt") (toL "\x7b\n(") =
      (false, toL "\x7b\n(", Diag.unclosed '(' 2 2) ∧
    (validate_syntax_fn (toL "a.txt") (toL "\x7b\n(")).2.2 ≠
      Diag.unclosed '{' 1 1 := by
  decide

/-- C4 counterexample: two balanced texts on which `validate` neither
returns `valid=true` nor leaves the content unchanged — an `.astro` file
holding a client directive, and a `.js` file matching the `if (`-header
fix pattern. -/
theorem balanced_valid_counterexample :
    (balancedB (toL "client:load") = true ∧
      validate_syntax_fn (toL "a.astro") (toL "client:load") =
        (false, [], Diag.removedAstroDirectives)) ∧
    (balancedB (toL "if (x { } )") = true ∧
      validate_syntax_fn (toL "a.js") (toL "if (x { } )") =
        (false, toL "if (x ) { } )", Diag.fixedIfParen)) := by
  decide

def fsAstro : FS :=
  fun q => if q = toL "a.astro" then some (toL "client:load x") else none

/-- C6 counterexample: an existing `.astro` file whose pre-call content
holds a client directive; writing with absent new content strips the
directive, so the on-disk bytes change. -/
theorem empty_content_noop_counterexample :
    fsAstro (toL "a.astro") = some (toL "client:load x") ∧
    (modify_ui_file fsAstro (toL "a.astro") none).1 (toL "a.astro") =
      some (toL " x") ∧
    toL " x" ≠ toL "client:load x" := by
  decide

theorem implementStep_lt (oracle : Nat → PerFileOutcome) (st : AgentState)
    (h : st.current_file_index < st.files_to_enhance.length)
    (hp : st.phase = Phase.implement_enhancements) :
    (implementStep oracle st).current_file_index = st.current_file_index + 1 ∧
    (implementStep oracle st).phase = Phase.implement_enhancements ∧
    (implementStep oracle st).files_to_enhance = st.files_to_enhance := by
  unfold implementStep
  rw [if_neg (by omega)]
  rcases oracle st.current_file_index <;> simp [hp]

theorem implementStep_ge (oracle : Nat → PerFileOutcome) (st : AgentState)
    (h : st.files_to_enhance.length ≤ st.current_file_index) :
    (implementStep oracle st).phase = Phase.verify_changes ∧
    (implementStep oracle st).current_file_index = st.current_file_index ∧
    (implementStep oracle st).files_to_enhance = st.files_to_enhance := by
  unfold implementStep
  rw [if_pos h]
  exact ⟨rfl, rfl, rfl⟩

theorem implementStep_iterate (oracle : Nat → PerFileOutcome) :
    ∀ (k : Nat) (st : AgentState),
    st.phase = Phase.implement_enhancements →
    st.current_file_index + k ≤ st.files_to_enhance.length →
    ((implementStep oracle)^[k] st).current_file_index =
      st.current_file_index + k ∧
    ((implementStep oracle)^[k] st).phase = Phase.implement_enhancements ∧
    ((implementStep oracle)^[k] st).files_to_enhance = st.files_to_enhance := by
  intro k
  induction k with
  | zero =>
    intro st hp _
    simpa using hp
  | succ n ih =>
    intro st hp hle
    have hlt : st.current_file_index < st.files_to_enhance.length := by omega
    obtain ⟨h1, h2, h3⟩ := implementStep_lt oracle st hlt hp
    rw [Function.iterate_succ_apply]
    obtain ⟨g1, g2, g3⟩ := ih (implementStep oracle st) h2 (by rw [h1, h3]; omega)
    refine ⟨?_, g2, by rw [g3, h3]⟩
    rw [g1, h1]
    omega

/-- C2: in the mutation phase, a step with cursor below the target count
advances it by exactly one whatever the per-file outcome and keeps the phase
and target list; the invariant `cursor ≤ len(targets)` is preserved; a step
with the cursor at the end moves to verification without touching the
cursor; and from cursor 0 the loop runs exactly `len(targets)` steps, after
which the next step enters the verification phase. -/
theorem mutate_cursor_advances (oracle : Nat → PerFileOutcome)
    (st : AgentState) (hp : st.phase = Phase.implement_enhancements) :
    (st.current_file_index < st.files_to_enhance.length →
      (implementStep oracle st).current_file_index =
        st.current_file_index + 1 ∧
      (implementStep oracle st).phase = Phase.implement_enhancements ∧
      (implementStep oracle st).files_to_enhance = st.files_to_enhance) ∧
    (st.current_file_index ≤ st.files_to_enhance.length →
      (implementStep oracle st).current_file_index ≤
        (implementStep oracle st).files_to_enhance.length) ∧
    (st.files_to_enhance.length ≤ st.current_file_index →
      (implementStep oracle st).phase = Phase.verify_changes ∧
      (implementStep oracle st).current_file_index = st.current_file_index) ∧
    (st.current_file_index = 0 →
      ((implementStep oracle)^[st.files_to_enhance.length] st).current_file_index =
        st.files_to_enhance.length ∧
      ((implementStep oracle)^[st.files_to_enhance.length] st).phase =
        Phase.implement_enhancements ∧
      ((implementStep oracle)^[st.files_to_enhance.length + 1] st).phase =
        Phase.verify_changes) := by
  refine ⟨fun hlt => implementStep_lt oracle st hlt hp, ?_, ?_, ?_⟩
  · intro hle
    by_cases hlt : st.current_file_index < st.files_to_enhance.length
    · obtain ⟨h1, _, h3⟩ := implementStep_lt oracle st hlt hp
      rw [h1, h3]
      omega
    · obtain ⟨_, h2, h3⟩ := implementStep_ge oracle st (by omega)
      rw [h2, h3]
      exact hle
  · intro hge
    obtain ⟨h1, h2, _⟩ := implementStep_ge oracle st hge
    exact ⟨h1, h2⟩
  · intro h0
    obtain ⟨g1, g2, g3⟩ := implementStep_iterate oracle
      st.files_to_enhance.length st hp (by omega)
    refine ⟨by rw [g1, h0]; omega, g2, ?_⟩
    rw [Function.iterate_succ_apply']
    exact (implementStep_ge oracle
      ((implementStep oracle)^[st.files_to_enhance.length] st)
      (by rw [g1, g3, h0]; omega)).1

def oracleW : Nat → PerFileOutcome := fun i =>
  if i = 0 then PerFileOutcome.modifyReturned true none
  else PerFileOutcome.fileMissing

def stW : AgentState :=
  ⟨Phase.implement_enhancements,
   [⟨toL "a.js", toL "theme", toL "x"⟩, ⟨toL "b.css", toL "layout", toL "y"⟩],
   0, []⟩

theorem mutate_cursor_advances_witness :
    (implementStep oracleW stW).current_file_index = 0 + 1 ∧
    ((implementStep oracleW)^[2] stW).phase = Phase.implement_enhancements ∧
    ((implementStep oracleW)^[3] stW).phase = Phase.verify_changes := by
  have h := mutate_cursor_advances oracleW stW rfl
  exact ⟨(h.1 (by decide)).1, (h.2.2.2 rfl).2.1, (h.2.2.2 rfl).2.2⟩

/-! ### Counting lemmas for `pyReplace` -/

theorem countC_append (c : Char) (s t : List Char) :
    countC c (s ++ t) = countC c s + countC c t := by
  induction s with
  | nil => simp [countC]
  | cons a rest ih =>
    show countC c (a :: (rest ++ t)) = countC c (a :: rest) + countC c t
    simp only [countC, ih]
    omega

theorem countC_pos_of_mem {c : Char} {s : List Char} (h : c ∈ s) :
    0 < countC c s := by
  induction s with
  | nil => cases h
  | cons a rest ih =>
    rcases List.mem_cons.mp h with h1 | h2
    · simp [countC, h1.symm]
    · have := ih h2
      simp only [countC]
      omega

theorem countC_eq_zero_of_not_mem {c : Char} {s : List Char} (h : c ∉ s) :
    countC c s = 0 := by
  induction s with
  | nil => rfl
  | cons a rest ih =>
    simp only [List.mem_cons, not_or] at h
    have hne : ¬(a = c) := fun he => h.1 he.symm
    simp [countC, hne, ih h.2]

theorem isPrefixOf_append_drop {l : List Char} :
    ∀ {s : List Char}, l.isPrefixOf s = true → s = l ++ s.drop l.length := by
  induction l with
  | nil => intro s _; simp
  | cons a as ih =>
    intro s h
    cases s with
    | nil => simp [List.isPrefixOf] at h
    | cons b bs =>
      simp only [List.isPrefixOf, Bool.and_eq_true, beq_iff_eq] at h
      obtain ⟨hb, hrest⟩ := h
      simpa [hb.symm, List.length_cons] using ih hrest

theorem contains_eq_false_not_mem {c : Char} {s : List Char}
    (h : s.contains c = false) : c ∉ s := by
  intro hm
  have : s.contains c = true := List.elem_eq_true_of_mem hm
  rw [h] at this
  cases this

theorem pyReplaceGo_succ (old new : List Char) :
    ∀ (fuel : Nat) (s : List Char), s.length ≤ fuel →
      pyReplaceGo old new (fuel + 1) s = pyReplaceGo old new fuel s := by
  intro fuel
  induction fuel with
  | zero =>
    intro s hs
    have : s = [] := List.length_eq_zero.mp (by omega)
    subst this
    rfl
  | succ n ih =>
    intro s hs
    cases s with
    | nil => rfl
    | cons a rest =>
      have hrest : rest.length ≤ n := by
        simp only [List.length_cons] at hs
        omega
      show pyReplaceGo old new (n + 1 + 1) (a :: rest) =
        pyReplaceGo old new (n + 1) (a :: rest)
      simp only [pyReplaceGo]
      by_cases hpre : (!old.isEmpty && old.isPrefixOf (a :: rest)) = true
      · rw [if_pos hpre, if_pos hpre]
        have hone : 1 ≤ old.length := by
          rcases old with _ | _
          · simp at hpre
          · simp
        have hlen : ((a :: rest).drop old.length).length ≤ n := by
          simp only [List.length_drop, List.length_cons]
          omega
        rw [ih _ hlen]
      · rw [if_neg hpre, if_neg hpre, ih rest hrest]

theorem pyReplaceGo_fuel (old new : List Char) :
    ∀ (fuel : Nat) (s : List Char), s.length ≤ fuel →
      pyReplaceGo old new fuel s = pyReplace s old new := by
  intro fuel
  induction fuel with
  | zero =>
    intro s hs
    have : s = [] := List.length_eq_zero.mp (by omega)
    subst this
    rfl
  | succ n ih =>
    intro s hs
    rcases Nat.lt_or_ge s.length (n + 1) with hlt | hge
    · rw [pyReplaceGo_succ old new n s (by omega), ih s (by omega)]
    · have : s.length = n + 1 := by omega
      rw [pyReplace, this]

/-- The step equation of `pyReplace` on a non-empty buffer. -/
theorem pyReplace_cons (a : Char) (rest old new : List Char) :
    pyReplace (a :: rest) old new =
      if !old.isEmpty && old.isPrefixOf (a :: rest) then
        new ++ pyReplace ((a :: rest).drop old.length) old new
      else a :: pyReplace rest old new := by
  show pyReplaceGo old new (rest.length + 1) (a :: rest) = _
  simp only [pyReplaceGo]
  by_cases hpre : (!old.isEmpty && old.isPrefixOf (a :: rest)) = true
  · rw [if_pos hpre, if_pos hpre]
    have hone : 1 ≤ old.length := by
      rcases old with _ | _
      · simp at hpre
      · simp
    rw [pyReplaceGo_fuel old new rest.length _
      (by simp only [List.length_drop, List.length_cons]; omega)]
  · rw [if_neg hpre, if_neg hpre,
      pyReplaceGo_fuel old new rest.length rest (by omega)]

theorem isEmpty_false_of_ne_nil {old : List Char} (h : old ≠ []) :
    old.isEmpty = false := by
  cases old with
  | nil => exact absurd rfl h
  | cons a as => rfl

theorem pyReplaceGo_countC_eq {c : Char} {old new : List Char}
    (hc : countC c new = countC c old) :
    ∀ (fuel : Nat) (s : List Char), s.length ≤ fuel →
      countC c (pyReplaceGo old new fuel s) = countC c s := by
  intro fuel
  induction fuel with
  | zero =>
    intro s hs
    have : s = [] := List.length_eq_zero.mp (by omega)
    subst this
    rfl
  | succ n ih =>
    intro s hs
    cases s with
    | nil => rfl
    | cons a rest =>
      simp only [pyReplaceGo]
      by_cases hpre : (!old.isEmpty && old.isPrefixOf (a :: rest)) = true
      · rw [if_pos hpre]
        have hpre2 := (Bool.and_eq_true _ _ |>.mp hpre).2
        have hone : 1 ≤ old.length := by
          rcases old with _ | _
          · simp at hpre
          · simp
        have hd : ((a :: rest).drop old.length).length ≤ n := by
          simp only [List.length_drop, List.length_cons]
          simp only [List.length_cons] at hs
          omega
        rw [countC_append, ih _ hd]
        conv_rhs => rw [isPrefixOf_append_drop hpre2]
        rw [countC_append, hc]
      · rw [if_neg hpre]
        simp only [countC]
        rw [ih rest (by simp only [List.length_cons] at hs; omega)]

theorem pyReplaceGo_countC_ge {c : Char} {old new : List Char}
    (hc : countC c old ≤ countC c new) :
    ∀ (fuel : Nat) (s : List Char), s.length ≤ fuel →
      countC c s ≤ countC c (pyReplaceGo old new fuel s) := by
  intro fuel
  induction fuel with
  | zero =>
    intro s hs
    have : s = [] := List.length_eq_zero.mp (by omega)
    subst this
    exact Nat.le_refl _
  | succ n ih =>
    intro s hs
    cases s with
    | nil => exact Nat.le_refl _
    | cons a rest =>
      simp only [pyReplaceGo]
      by_cases hpre : (!old.isEmpty && old.isPrefixOf (a :: rest)) = true
      · rw [if_pos hpre]
        have hpre2 := (Bool.and_eq_true _ _ |>.mp hpre).2
        have hone : 1 ≤ old.length := by
          rcases old with _ | _
          · simp at hpre
          · simp
        have hd : ((a :: rest).drop old.length).length ≤ n := by
          simp only [List.length_drop, List.length_cons]
          simp only [List.length_cons] at hs
          omega
        have hdec := isPrefixOf_append_drop hpre2
        calc countC c (a :: rest) = countC c old +
              countC c ((a :: rest).drop old.length) := by
                conv_lhs => rw [hdec]
                rw [countC_append]
          _ ≤ countC c new + countC c (pyReplaceGo old new n
                ((a :: rest).drop old.length)) :=
              Nat.add_le_add hc (ih _ hd)
          _ = countC c (new ++ pyReplaceGo old new n
                ((a :: rest).drop old.length)) := (countC_append _ _ _).symm
      · rw [if_neg hpre]
        simp only [countC]
        have := ih rest (by simp only [List.length_cons] at hs; omega)
        omega

theorem pyReplaceGo_countC_occurs {c : Char} {old new : List Char}
    (hne : old ≠ []) (h0 : countC c old = 0) :
    ∀ (fuel : Nat) (s : List Char), s.length ≤ fuel →
      occurs old s = true →
      countC c s + countC c new ≤ countC c (pyReplaceGo old new fuel s) := by
  intro fuel
  induction fuel with
  | zero =>
    intro s hs hocc
    have : s = [] := List.length_eq_zero.mp (by omega)
    subst this
    cases old with
    | nil => exact absurd rfl hne
    | cons x xs => simp [occurs, List.isPrefixOf] at hocc
  | succ n ih =>
    intro s hs hocc
    cases s with
    | nil =>
      cases old with
      | nil => exact absurd rfl hne
      | cons x xs => simp [occurs, List.isPrefixOf] at hocc
    | cons a rest =>
      simp only [pyReplaceGo]
      by_cases hpre : (!old.isEmpty && old.isPrefixOf (a :: rest)) = true
      · rw [if_pos hpre]
        have hpre2 := (Bool.and_eq_true _ _ |>.mp hpre).2
        have hone : 1 ≤ old.length := by
          rcases old with _ | _
          · simp at hpre
          · simp
        have hd : ((a :: rest).drop old.length).length ≤ n := by
          simp only [List.length_drop, List.length_cons]
          simp only [List.length_cons] at hs
          omega
        have hdec := isPrefixOf_append_drop hpre2
        have hcnt : countC c (a :: rest) =
            countC c ((a :: rest).drop old.length) := by
          conv_lhs => rw [hdec]
          rw [countC_append, h0, Nat.zero_add]
        rw [countC_append, hcnt]
        have := @pyReplaceGo_countC_ge c old new (by omega) n _ hd
        omega
      · rw [if_neg hpre]
        have hp : old.isPrefixOf (a :: rest) = false := by
          cases hp2 : old.isPrefixOf (a :: rest) with
          | false => rfl
          | true =>
            exact absurd (by rw [isEmpty_false_of_ne_nil hne, hp2]; rfl) hpre
        simp only [occurs, hp, Bool.false_or] at hocc
        have := ih rest (by simp only [List.length_cons] at hs; omega) hocc
        simp only [countC]
        omega

theorem pyReplaceGo_id_of_not_occurs {old new : List Char} :
    ∀ (fuel : Nat) (s : List Char), s.length ≤ fuel →
      occurs old s = false → pyReplaceGo old new fuel s = s := by
  intro fuel
  induction fuel with
  | zero =>
    intro s hs _
    have : s = [] := List.length_eq_zero.mp (by omega)
    subst this
    rfl
  | succ n ih =>
    intro s hs hocc
    cases s with
    | nil => rfl
    | cons a rest =>
      simp only [occurs, Bool.or_eq_false_iff] at hocc
      simp only [pyReplaceGo]
      rw [if_neg (by rw [hocc.1]; simp)]
      rw [ih rest (by simp only [List.length_cons] at hs; omega) hocc.2]

/-! ### Lemmas about the bracket scan -/

/-- Number of `(` openers recorded on a scan stack. -/
def stkOpen (st : List (Char × Nat × Nat)) : Nat :=
  countC '(' (st.map (fun e => e.1))

theorem countC_cons (c0 a : Char) (l : List Char) :
    countC c0 (a :: l) = (if a = c0 then 1 else 0) + countC c0 l := rfl

theorem stkOpen_cons (c : Char) (x : Nat × Nat)
    (st : List (Char × Nat × Nat)) :
    stkOpen ((c, x) :: st) = (if c = '(' then 1 else 0) + stkOpen st := rfl

theorem brClose_eq_rparen {o : Char} (h : brClose o = ')') : o = '(' := by
  by_cases h1 : o = '('
  · exact h1
  · exfalso
    by_cases h2 : o = '['
    · rw [brClose, if_neg h1, if_pos h2] at h
      exact absurd h (by decide)
    · rw [brClose, if_neg h1, if_neg h2] at h
      exact absurd h (by decide)

theorem brClose_lparen : brClose '(' = ')' := by decide

/-- A successful scan pops one `(` for every `)` consumed: parenthesis
counts balance against the stack. -/
theorem scan_count :
    ∀ (s : List Char) (st : List (Char × Nat × Nat)) (p : Nat × Nat)
      (st' : List (Char × Nat × Nat)),
      scanBrackets s st p = Except.ok st' →
      countC '(' s + stkOpen st = countC ')' s + stkOpen st' := by
  intro s
  induction s with
  | nil =>
    intro st p st' h
    simp only [scanBrackets] at h
    cases h
    simp [countC]
  | cons c rest ih =>
    intro st p st' h
    simp only [scanBrackets] at h
    by_cases hop : isOpenBr c = true
    · rw [if_pos hop] at h
      have hrec := ih _ _ _ h
      rw [stkOpen_cons] at hrec
      rw [countC_cons, countC_cons]
      have hnc : ¬(c = ')') := by
        intro he
        subst he
        revert hop
        decide
      rw [if_neg hnc]
      by_cases hc : c = '('
      · rw [if_pos hc]
        rw [if_pos hc] at hrec
        omega
      · rw [if_neg hc]
        rw [if_neg hc] at hrec
        omega
    · rw [if_neg hop] at h
      by_cases hcl : isCloseBr c = true
      · rw [if_pos hcl] at h
        cases st with
        | nil => cases h
        | cons o st2 =>
          obtain ⟨oc, ox⟩ := o
          replace h :
              (if brClose oc = c then scanBrackets rest st2 (stepPos p c)
               else Except.error
                 (Diag.mismatched (stepPos p c).1 (stepPos p c).2)) =
              Except.ok st' := h
          by_cases hm : brClose oc = c
          · rw [if_pos hm] at h
            have hrec := ih _ _ _ h
            rw [countC_cons, countC_cons, stkOpen_cons]
            have hnc : ¬(c = '(') := by
              intro he
              subst he
              revert hcl
              decide
            rw [if_neg hnc]
            by_cases hc : c = ')'
            · subst hc
              have ho : oc = '(' := brClose_eq_rparen hm
              rw [if_pos rfl, if_pos ho]
              omega
            · rw [if_neg hc]
              have ho : ¬(oc = '(') := by
                intro he
                subst he
                rw [brClose_lparen] at hm
                exact hc hm.symm
              rw [if_neg ho]
              omega
          · rw [if_neg hm] at h
            cases h
      · rw [if_neg hcl] at h
        have hrec := ih _ _ _ h
        have hnc1 : ¬(c = '(') := by
          intro he
          subst he
          revert hop
          decide
        have hnc2 : ¬(c = ')') := by
          intro he
          subst he
          revert hcl
          decide
        rw [countC_cons, countC_cons, if_neg hnc1, if_neg hnc2]
        omega

/-- If `validate_syntax` reports valid, the bracket scan succeeded with an
empty stack. -/
theorem validate_true_scan {path s : List Char}
    (h : (validate_syntax_fn path s).1 = true) :
    scanBrackets s [] (1, 1) = Except.ok [] := by
  rcases hscan : scanBrackets s [] (1, 1) with d | stack
  · rw [validate_syntax_fn, hscan] at h
    cases h
  · cases stack with
    | nil => rfl
    | cons e st2 =>
      rw [validate_syntax_fn, hscan] at h
      cases h

/-- A scan from an empty stack that ends with an empty stack consumed as
many `)` as `(`. -/
theorem scan_balanced_counts {s : List Char}
    (h : scanBrackets s [] (1, 1) = Except.ok []) :
    countC '(' s = countC ')' s := by
  have := scan_count s [] (1, 1) [] h
  simpa [stkOpen, countC] using this

/-- The spec-side balance checker agrees with the success of the source's
position-tracking scan: the positions are irrelevant to acceptance. -/
theorem balancedFrom_iff_scan :
    ∀ (s : List Char) (st : List (Char × Nat × Nat)) (p : Nat × Nat),
      balancedFrom (st.map (fun e => e.1)) s = true ↔
        scanBrackets s st p = Except.ok [] := by
  intro s
  induction s with
  | nil =>
    intro st p
    simp only [balancedFrom, scanBrackets]
    constructor
    · intro h
      have : st.map (fun e => e.1) = [] := by
        cases hst : st.map (fun e => e.1) with
        | nil => rfl
        | cons x xs => rw [hst] at h; cases h
      have : st = [] := by
        cases st with
        | nil => rfl
        | cons e st2 => simp at this
      rw [this]
    · intro h
      cases h
      simp
  | cons c rest ih =>
    intro st p
    simp only [balancedFrom, scanBrackets]
    by_cases hop : isOpenBr c = true
    · rw [if_pos hop, if_pos hop]
      have := ih ((c, (stepPos p c).1, (stepPos p c).2) :: st) (stepPos p c)
      simpa using this
    · rw [if_neg hop, if_neg hop]
      by_cases hcl : isCloseBr c = true
      · rw [if_pos hcl, if_pos hcl]
        cases st with
        | nil =>
          simp only [List.map_nil]
          constructor
          · intro h; cases h
          · intro h; cases h
        | cons o st2 =>
          obtain ⟨oc, ox⟩ := o
          simp only [List.map_cons]
          by_cases hm : brClose oc = c
          · rw [if_pos hm]
            have := ih st2 (stepPos p c)
            constructor
            · intro h
              have hb := (Bool.and_eq_true _ _).mp h
              exact (this).mp hb.2
            · intro h
              have := (this).mpr h
              rw [this]
              simp [hm]
          · rw [if_neg hm]
            constructor
            · intro h
              have hb := (Bool.and_eq_true _ _).mp h
              exact absurd (of_decide_eq_true hb.1) hm
            · intro h; cases h
      · rw [if_neg hcl, if_neg hcl]
        exact ih st (stepPos p c)

/-- Every entry of the final stack of a successful scan is either an entry
of the initial stack or records an actual character of the input, at the
position reached by folding the position update over the preceding prefix
and then stepping on the character itself. -/
theorem scan_stack_mem :
    ∀ (s : List Char) (st : List (Char × Nat × Nat)) (p : Nat × Nat)
      (st' : List (Char × Nat × Nat)),
      scanBrackets s st p = Except.ok st' →
      ∀ e ∈ st', e ∈ st ∨
        ∃ i, i < s.length ∧ s[i]? = some e.1 ∧
          stepPos (List.foldl stepPos p (s.take i)) e.1 = (e.2.1, e.2.2) := by
  intro s
  induction s with
  | nil =>
    intro st p st' h e he
    simp only [scanBrackets] at h
    cases h
    exact Or.inl he
  | cons c rest ih =>
    intro st p st' h e he
    simp only [scanBrackets] at h
    have lift : (e ∈ st ∨
        ∃ i, i < rest.length ∧ rest[i]? = some e.1 ∧
          stepPos (List.foldl stepPos (stepPos p c) (rest.take i)) e.1 =
            (e.2.1, e.2.2)) →
        (e ∈ st ∨
        ∃ i, i < (c :: rest).length ∧ (c :: rest)[i]? = some e.1 ∧
          stepPos (List.foldl stepPos p ((c :: rest).take i)) e.1 =
            (e.2.1, e.2.2)) := by
      rintro (h1 | ⟨i, hi, hg, hp2⟩)
      · exact Or.inl h1
      · refine Or.inr ⟨i + 1, by simpa using hi, by simpa using hg, ?_⟩
        simpa using hp2
    by_cases hop : isOpenBr c = true
    · rw [if_pos hop] at h
      rcases ih _ _ _ h e he with hmem | hidx
      · rcases List.mem_cons.mp hmem with hc | hst
        · subst hc
          refine Or.inr ⟨0, by simp, by simp, by simp⟩
        · exact Or.inl hst
      · exact lift (Or.inr hidx)
    · rw [if_neg hop] at h
      by_cases hcl : isCloseBr c = true
      · rw [if_pos hcl] at h
        cases st with
        | nil => cases h
        | cons o st2 =>
          obtain ⟨oc, ox⟩ := o
          replace h :
              (if brClose oc = c then scanBrackets rest st2 (stepPos p c)
               else Except.error
                 (Diag.mismatched (stepPos p c).1 (stepPos p c).2)) =
              Except.ok st' := h
          by_cases hm : brClose oc = c
          · rw [if_pos hm] at h
            rcases ih _ _ _ h e he with hmem | hidx
            · exact Or.inl (List.mem_cons_of_mem _ hmem)
            · exact lift (Or.inr hidx)
          · rw [if_neg hm] at h
            cases h
      · rw [if_neg hcl] at h
        rcases ih _ _ _ h e he with hmem | hidx
        · exact Or.inl hmem
        · exact lift (Or.inr hidx)

/-- C3 (amended): when the scan ends with a non-empty stack, `validate`
returns `valid=false` with an `unclosed` diagnostic naming the most recently
opened still-open delimiter — the top of the stack — and the recorded
position is the one obtained by folding the position update over the prefix
before that character and stepping once more on it (so the column is one
greater than the character's 1-based column). -/
theorem unclosed_names_last_open (path content : List Char) (o : Char)
    (l k : Nat) (rest : List (Char × Nat × Nat))
    (h : scanBrackets content [] (1, 1) = Except.ok ((o, l, k) :: rest)) :
    validate_syntax_fn path content = (false, content, Diag.unclosed o l k) ∧
    ∃ i, i < content.length ∧ content[i]? = some o ∧
      stepPos (List.foldl stepPos (1, 1) (content.take i)) o = (l, k) := by
  constructor
  · unfold validate_syntax_fn
    rw [h]
  · have hm := scan_stack_mem content [] (1, 1) _ h (o, l, k)
      (List.mem_cons_self _ _)
    rcases hm with hmem | hidx
    · cases hmem
    · simpa using hidx

theorem unclosed_names_last_open_witness :
    validate_syntax_fn (toL "a.txt") (toL "\x7b") =
      (false, toL "\x7b", Diag.unclosed '{' 1 2) ∧
    ∃ i, i < (toL "\x7b").length ∧ (toL "\x7b")[i]? = some '{' ∧
      stepPos (List.foldl stepPos (1, 1) ((toL "\x7b").take i)) '{' = (1, 2) :=
  unclosed_names_last_open (toL "a.txt") (toL "\x7b") '{' 1 2 [] (by decide)

/-- C4 (amended): for every balanced text, `validate` returns `valid=true`
with the content unchanged and no diagnostic, provided the filetype-specific
rewrites do not fire: for `.js`/`.jsx` paths the `if (`-header pattern finds
no fixable match, and for `.astro` paths the content carries no client
hydration directive. -/
theorem balanced_valid_unless_rewrites (path content : List Char)
    (hb : balancedB content = true)
    (hjs : ((toL ".js").isSuffixOf path || (toL ".jsx").isSuffixOf path) =
      true → (findAllIf content).find? jsFixCond = none)
    (hastro : (toL ".astro").isSuffixOf path = true →
      astroDirCond content = false) :
    validate_syntax_fn path content = (true, content, Diag.ok) := by
  have hscan : scanBrackets content [] (1, 1) = Except.ok [] :=
    (balancedFrom_iff_scan content [] (1, 1)).mp hb
  have hastroPart : astroPart path content = (true, content, Diag.ok) := by
    unfold astroPart
    by_cases ha : (toL ".astro").isSuffixOf path = true
    · rw [hastro ha]
      simp
    · have ha2 : (toL ".astro").isSuffixOf path = false :=
        Bool.eq_false_iff.mpr ha
      rw [ha2]
      simp
  unfold validate_syntax_fn
  rw [hscan]
  by_cases hj : ((toL ".js").isSuffixOf path ||
      (toL ".jsx").isSuffixOf path) = true
  · rw [if_pos hj, hjs hj]
    exact hastroPart
  · rw [if_neg hj]
    exact hastroPart

theorem balanced_valid_unless_rewrites_witness :
    validate_syntax_fn (toL "x.css") (toL "a{b}") =
      (true, toL "a{b}", Diag.ok) :=
  balanced_valid_unless_rewrites (toL "x.css") (toL "a{b}") (by decide)
    (fun h => absurd h (by decide)) (fun h => absurd h (by decide))

/-! ### Lemmas about `lastIdxOf`, `matchIfPat` and `findAllIf` -/

theorem lastIdxOf_getElem {c : Char} :
    ∀ {s : List Char} {i : Nat}, lastIdxOf c s = some i →
      i < s.length ∧ s[i]? = some c := by
  intro s
  induction s with
  | nil => intro i h; cases h
  | cons a rest ih =>
    intro i h
    simp only [lastIdxOf] at h
    cases hrec : lastIdxOf c rest with
    | some j =>
      rw [hrec] at h
      cases h
      obtain ⟨h1, h2⟩ := ih hrec
      exact ⟨by simpa using h1, by simpa using h2⟩
    | none =>
      rw [hrec] at h
      by_cases hac : a = c
      · rw [if_pos hac] at h
        cases h
        exact ⟨by simp, by simp [hac]⟩
      · rw [if_neg hac] at h
        cases h

theorem lastIdxOf_none {c : Char} :
    ∀ {s : List Char}, lastIdxOf c s = none → c ∉ s := by
  intro s
  induction s with
  | nil => intro _ h; cases h
  | cons a rest ih =>
    intro h hmem
    simp only [lastIdxOf] at h
    cases hrec : lastIdxOf c rest with
    | some j => rw [hrec] at h; cases h
    | none =>
      rw [hrec] at h
      by_cases hac : a = c
      · rw [if_pos hac] at h; cases h
      · rcases List.mem_cons.mp hmem with h1 | h2
        · exact hac h1.symm
        · exact ih hrec h2

theorem lastIdxOf_after {c : Char} :
    ∀ {s : List Char} {i : Nat}, lastIdxOf c s = some i →
      ∀ j, i < j → s[j]? ≠ some c := by
  intro s
  induction s with
  | nil => intro i h; cases h
  | cons a rest ih =>
    intro i h j hj
    simp only [lastIdxOf] at h
    cases hrec : lastIdxOf c rest with
    | some m =>
      rw [hrec] at h
      cases h
      match j, hj with
      | j + 1, hj =>
        have := ih hrec j (by omega)
        simpa using this
    | none =>
      rw [hrec] at h
      by_cases hac : a = c
      · rw [if_pos hac] at h
        cases h
        match j, hj with
        | j + 1, _ =>
          intro hg
          exact lastIdxOf_none hrec (by
            have : rest[j]? = some c := by simpa using hg
            exact List.getElem?_mem this)
      · rw [if_neg hac] at h
        cases h

theorem matchIfPat_brace {s m : List Char} (h : matchIfPat s = some m) :
    '{' ∈ m := by
  unfold matchIfPat at h
  split at h
  next rest =>
    split at h
    next rest3 heq =>
      split at h
      next k hlast =>
        cases h
        obtain ⟨h1, h2⟩ := lastIdxOf_getElem hlast
        have hk :
            ((rest3.takeWhile (fun c => !(c = ')'))).take (k + 1))[k]? =
              some '{' := by
          rw [List.getElem?_take_of_lt (by omega : k < k + 1)]
          exact h2
        have hmem := List.getElem?_mem hk
        simp [hmem]
      next => cases h
    next => cases h
  next => cases h

theorem pyReplace_countC_eq {c : Char} {old new : List Char}
    (hc : countC c new = countC c old) (s : List Char) :
    countC c (pyReplace s old new) = countC c s :=
  pyReplaceGo_countC_eq hc s.length s (Nat.le_refl _)

theorem pyReplace_countC_occurs {c : Char} {old new : List Char}
    (hne : old ≠ []) (h0 : countC c old = 0) {s : List Char}
    (hocc : occurs old s = true) :
    countC c s + countC c new ≤ countC c (pyReplace s old new) :=
  pyReplaceGo_countC_occurs hne h0 s.length s (Nat.le_refl _) hocc

theorem pyReplace_id_of_not_occurs {old new s : List Char}
    (hocc : occurs old s = false) : pyReplace s old new = s :=
  pyReplaceGo_id_of_not_occurs s.length s (Nat.le_refl _) hocc

theorem occurs_singleton_of_mem {c : Char} {s : List Char} (h : c ∈ s) :
    occurs [c] s = true := by
  induction s with
  | nil => cases h
  | cons a rest ih =>
    simp only [occurs]
    rcases List.mem_cons.mp h with h1 | h2
    · subst h1
      have hp : [c].isPrefixOf (c :: rest) = true := by
        simp [List.isPrefixOf]
      rw [hp]
      simp
    · rw [ih h2]
      simp

theorem findAllIfGo_brace :
    ∀ (fuel : Nat) (s m : List Char), m ∈ findAllIfGo fuel s → '{' ∈ m := by
  intro fuel
  induction fuel with
  | zero =>
    intro s m h
    cases s with
    | nil => cases h
    | cons a rest => cases h
  | succ n ih =>
    intro s m h
    cases s with
    | nil => cases h
    | cons a rest =>
      simp only [findAllIfGo] at h
      cases hm : matchIfPat (a :: rest) with
      | some m0 =>
        rw [hm] at h
        rcases List.mem_cons.mp h with h1 | h2
        · subst h1
          exact matchIfPat_brace hm
        · exact ih _ _ h2
      | none =>
        rw [hm] at h
        exact ih _ _ h

theorem findAllIf_brace {s m : List Char} (h : m ∈ findAllIf s) : '{' ∈ m :=
  findAllIfGo_brace s.length s m h

theorem astroPart_ok {p c : List Char}
    (h : (toL ".astro").isSuffixOf p = true → astroDirCond c = false) :
    astroPart p c = (true, c, Diag.ok) := by
  unfold astroPart
  by_cases ha : (toL ".astro").isSuffixOf p = true
  · rw [h ha]
    simp
  · rw [Bool.eq_false_iff.mpr ha]
    simp

theorem finalContent_of_valid {p orig t2 : List Char}
    (hv : (validate_syntax_fn p t2).1 = true) : finalContent p orig t2 = t2 := by
  rcases hv' : validate_syntax_fn p t2 with ⟨b, z⟩
  rw [hv'] at hv
  subst hv
  simp [finalContent, hv']

theorem finalContent_of_fix_invalid {p orig t2 fixed : List Char} {d : Diag}
    (hv : validate_syntax_fn p t2 = (false, fixed, d))
    (hv2 : (validate_syntax_fn p fixed).1 = false) :
    finalContent p orig t2 = orig := by
  rcases hv' : validate_syntax_fn p fixed with ⟨b2, z2⟩
  rw [hv'] at hv2
  subst hv2
  simp [finalContent, hv, hv']

/-- The second validation of the buffer fixed by the `if (`-header rewrite
always fails on content whose scan succeeded with an empty stack: the
rewrite inserts `)` characters without inserting `(`, so the parenthesis
counts no longer balance. -/
theorem revalidate_fixed_fails {p orig m : List Char}
    (hscan : scanBrackets orig [] (1, 1) = Except.ok [])
    (hcond : jsFixCond m = true) (hbrace : '{' ∈ m)
    (hoc : occurs m orig = true) :
    (validate_syntax_fn p (pyReplace orig m (fixIfStmt m))).1 = false := by
  have hnomem : ')' ∉ m := by
    have h2 := (Bool.and_eq_true _ _ |>.mp hcond).2
    have : m.contains ')' = false := by
      cases hc : m.contains ')'
      · rfl
      · rw [hc] at h2
        cases h2
    exact contains_eq_false_not_mem this
  have h0m : countC ')' m = 0 := countC_eq_zero_of_not_mem hnomem
  have hmne : m ≠ [] := List.ne_nil_of_mem hbrace
  have hocb : occurs (toL "\x7b") m = true := by
    have : toL "\x7b" = ['{'] := rfl
    rw [this]
    exact occurs_singleton_of_mem hbrace
  have c1 : countC '(' (fixIfStmt m) = countC '(' m :=
    pyReplace_countC_eq (by decide) m
  have c2 : countC ')' m + countC ')' (toL ") \x7b") ≤
      countC ')' (fixIfStmt m) :=
    pyReplace_countC_occurs (by decide) (by decide) hocb
  have c2' : 1 ≤ countC ')' (fixIfStmt m) := by
    have hone : countC ')' (toL ") \x7b") = 1 := by decide
    omega
  have c3 : countC '(' (pyReplace orig m (fixIfStmt m)) = countC '(' orig :=
    pyReplace_countC_eq c1 orig
  have c4 : countC ')' orig + countC ')' (fixIfStmt m) ≤
      countC ')' (pyReplace orig m (fixIfStmt m)) :=
    pyReplace_countC_occurs hmne h0m hoc
  have hbal : countC '(' orig = countC ')' orig := scan_balanced_counts hscan
  cases hb2 : (validate_syntax_fn p (pyReplace orig m (fixIfStmt m))).1
  · rfl
  · exfalso
    have hscan2 := validate_true_scan hb2
    have := scan_balanced_counts hscan2
    omega

/-- C6 (amended): writing an existing file with empty or absent new content
leaves the file's bytes unchanged, reports success, and leaves a backup at
`path + ".bak"` equal to the pre-call content — unless the path is an
`.astro` file whose pre-call content contains a client hydration directive
(in which case the directive is stripped on disk, see the counterexample). -/
theorem empty_content_noop_amended (fs : FS) (p orig : List Char)
    (e : Option (List Char)) (h : fs p = some orig)
    (he : e = none ∨ e = some [])
    (hastro : ¬((toL ".astro").isSuffixOf p = true ∧
      astroDirCond orig = true)) :
    (modify_ui_file fs p e).1 p = some orig ∧
    (modify_ui_file fs p e).2.success = true ∧
    (modify_ui_file fs p e).1 (bakPath p) = some orig := by
  have hdc : (toL ".astro").isSuffixOf p = true → astroDirCond orig = false := by
    intro ha
    cases hx : astroDirCond orig
    · rfl
    · exact absurd ⟨ha, hx⟩ hastro
  have hcc : chooseContent orig e = orig := by
    rcases he with he | he <;> subst he <;> simp [chooseContent]
  have ht2 : preValidate p (chooseContent orig e) = orig := by
    rw [hcc]
    unfold preValidate
    by_cases ha : (toL ".astro").isSuffixOf p = true
    · rw [if_pos ha]
      unfold validate_astro_file
      rw [hdc ha]
      simp
    · rw [if_neg ha]
  have hfinal : finalContent p orig orig = orig := by
    rcases hscan : scanBrackets orig [] (1, 1) with d0 | stack
    · have hv : validate_syntax_fn p orig = (false, orig, d0) := by
        unfold validate_syntax_fn
        rw [hscan]
      exact finalContent_of_fix_invalid hv (by rw [hv])
    · cases stack with
      | cons top rest =>
        obtain ⟨oc, ol, okk⟩ := top
        have hv : validate_syntax_fn p orig =
            (false, orig, Diag.unclosed oc ol okk) := by
          unfold validate_syntax_fn
          rw [hscan]
        exact finalContent_of_fix_invalid hv (by rw [hv])
      | nil =>
        by_cases hj : ((toL ".js").isSuffixOf p ||
            (toL ".jsx").isSuffixOf p) = true
        · rcases hfind : (findAllIf orig).find? jsFixCond with _ | m
          · have hv : validate_syntax_fn p orig = (true, orig, Diag.ok) := by
              unfold validate_syntax_fn
              rw [hscan, if_pos hj, hfind]
              exact astroPart_ok hdc
            exact finalContent_of_valid (by rw [hv])
          · have hv : validate_syntax_fn p orig =
                (false, pyReplace orig m (fixIfStmt m), Diag.fixedIfParen) := by
              unfold validate_syntax_fn
              rw [hscan, if_pos hj, hfind]
            have hcond : jsFixCond m = true := List.find?_some hfind
            have hmem : m ∈ findAllIf orig :=
              List.mem_of_find?_eq_some hfind
            have hbrace : '{' ∈ m := findAllIf_brace hmem
            cases hoc : occurs m orig
            · have hfix : pyReplace orig m (fixIfStmt m) = orig :=
                pyReplace_id_of_not_occurs hoc
              rw [hfix] at hv
              exact finalContent_of_fix_invalid hv (by rw [hv])
            · exact finalContent_of_fix_invalid hv
                (revalidate_fixed_fails hscan hcond hbrace hoc)
        · have hv : validate_syntax_fn p orig = (true, orig, Diag.ok) := by
            unfold validate_syntax_fn
            rw [hscan, if_neg hj]
            exact astroPart_ok hdc
          exact finalContent_of_valid (by rw [hv])
  have hbakne : bakPath p ≠ p := by
    intro hbe
    have := congrArg List.length hbe
    simp [bakPath, toL] at this
  refine ⟨?_, by simp [modify_ui_file, h], ?_⟩
  · show (modify_ui_file fs p e).1 p = some orig
    simp only [modify_ui_file, h, ht2, hfinal, fsWrite]
    simp
  · show (modify_ui_file fs p e).1 (bakPath p) = some orig
    simp only [modify_ui_file, h, fsWrite]
    rw [if_neg hbakne]
    simp

def fsTxt : FS := fun q => if q = toL "b.txt" then some (toL "hello") else none

theorem empty_content_noop_amended_witness :
    (modify_ui_file fsTxt (toL "b.txt") none).1 (toL "b.txt") =
      some (toL "hello") ∧
    (modify_ui_file fsTxt (toL "b.txt") none).2.success = true ∧
    (modify_ui_file fsTxt (toL "b.txt") none).1 (bakPath (toL "b.txt")) =
      some (toL "hello") :=
  empty_content_noop_amended fsTxt (toL "b.txt") (toL "hello") none
    (by decide) (Or.inl rfl) (by decide)

/-- Characterisation of the strict-improvement fold of the aspect loop: it
either keeps its accumulator (when nothing beats it) or returns the first
element achieving the overall maximum among those beating the accumulator,
with everything before it strictly below and everything after it at most
equal. -/
theorem foldl_selectStep_spec (path content : List Char) :
    ∀ (l : List (Aspect × List (List Char))) (b : Option Aspect) (n : Nat),
      (l.foldl (selectStep path content) (b, n) = (b, n) ∧
        ∀ e ∈ l, aspectScore e.2 path content ≤ n) ∨
      (∃ l1 e l2, l = l1 ++ e :: l2 ∧
        l.foldl (selectStep path content) (b, n) =
          (some e.1, aspectScore e.2 path content) ∧
        n < aspectScore e.2 path content ∧
        (∀ x ∈ l1, aspectScore x.2 path content <
          aspectScore e.2 path content) ∧
        (∀ x ∈ l2, aspectScore x.2 path content ≤
          aspectScore e.2 path content)) := by
  intro l
  induction l with
  | nil =>
    intro b n
    left
    exact ⟨rfl, by simp⟩
  | cons e rest ih =>
    intro b n
    simp only [List.foldl_cons]
    by_cases hgt : n < aspectScore e.2 path content
    · have hstep : selectStep path content (b, n) e =
          (some e.1, aspectScore e.2 path content) := by
        unfold selectStep
        rw [if_pos hgt]
      rw [hstep]
      rcases ih (some e.1) (aspectScore e.2 path content) with
        ⟨heq, hall⟩ | ⟨l1, e', l2, hdec, hres, hlt, hl1, hl2⟩
      · right
        exact ⟨[], e, rest, by simp, by rw [heq], hgt, by simp, hall⟩
      · right
        refine ⟨e :: l1, e', l2, by rw [hdec]; rfl, hres, by omega, ?_, hl2⟩
        intro x hx
        rcases List.mem_cons.mp hx with h1 | h2
        · rw [h1]
          exact hlt
        · exact hl1 x h2
    · have hstep : selectStep path content (b, n) e = (b, n) := by
        unfold selectStep
        rw [if_neg hgt]
      rw [hstep]
      rcases ih b n with
        ⟨heq, hall⟩ | ⟨l1, e', l2, hdec, hres, hlt, hl1, hl2⟩
      · left
        refine ⟨heq, ?_⟩
        intro x hx
        rcases List.mem_cons.mp hx with h1 | h2
        · rw [h1]
          omega
        · exact hall x h2
      · right
        refine ⟨e :: l1, e', l2, by rw [hdec]; rfl, hres, hlt, ?_, hl2⟩
        intro x hx
        rcases List.mem_cons.mp hx with h1 | h2
        · rw [h1]
          omega
        · exact hl1 x h2

theorem ui_keywords_score (e : Aspect × List (List Char))
    (he : e ∈ ui_keywords) (path content : List Char) :
    aspectScore e.2 path content = scoreA e.1 path content := by
  fin_cases he <;> rfl

theorem mem_ui_keywords_of_ne_other {a : Aspect} (h : a ≠ Aspect.other) :
    (a, keywordsOf a) ∈ ui_keywords := by
  cases a
  case other => exact absurd rfl h
  all_goals decide

/-- C8: the aspect assigned to a file is governed by the weighted keyword
score (3 per path hit, 1 per content hit, case-insensitive): if every
aspect scores zero the file is assigned `other`; and any non-`other` aspect
with positive score that strictly beats every earlier-declared aspect and
is not beaten by any later-declared one is the one assigned. -/
theorem aspect_scoring_spec (path content : List Char) (a : Aspect) :
    ((∀ b : Aspect, scoreA b path content = 0) →
      fileAspect path content = Aspect.other) ∧
    (a ≠ Aspect.other → 0 < scoreA a path content →
      (∀ b : Aspect, aspectIdx b < aspectIdx a →
        scoreA b path content < scoreA a path content) →
      (∀ b : Aspect, aspectIdx a < aspectIdx b →
        scoreA b path content ≤ scoreA a path content) →
      fileAspect path content = a) := by
  constructor
  · intro hz
    rcases foldl_selectStep_spec path content ui_keywords none 0 with
      ⟨heq, _⟩ | ⟨l1, e, l2, hdec, hres, hlt0, _, _⟩
    · unfold fileAspect selectAspect
      rw [heq]
    · exfalso
      have hmem : e ∈ ui_keywords := by
        rw [hdec]
        exact List.mem_append_right _ (List.mem_cons_self _ _)
      have hS := ui_keywords_score e hmem path content
      have := hz e.1
      omega
  · intro hne hpos hltH hleH
    rcases foldl_selectStep_spec path content ui_keywords none 0 with
      ⟨_, hall⟩ | ⟨l1, e, l2, hdec, hres, hlt0, hl1, hl2⟩
    · exfalso
      have hmem := mem_ui_keywords_of_ne_other hne
      have := hall _ hmem
      have hscore : aspectScore (a, keywordsOf a).2 path content =
          scoreA a path content := rfl
      omega
    · have hmem_e : e ∈ ui_keywords := by
        rw [hdec]
        exact List.mem_append_right _ (List.mem_cons_self _ _)
      have hS := ui_keywords_score e hmem_e path content
      have hfa : fileAspect path content = e.1 := by
        unfold fileAspect selectAspect
        rw [hres]
        show (if 0 < aspectScore e.2 path content then e.1
          else Aspect.other) = e.1
        rw [if_pos hlt0]
      have hp : ui_keywords.Pairwise
          (fun x y => aspectIdx x.1 < aspectIdx y.1) := by decide
      rw [hdec] at hp
      have hmem_a : (a, keywordsOf a) ∈ l1 ++ e :: l2 := by
        rw [← hdec]
        exact mem_ui_keywords_of_ne_other hne
      rcases List.mem_append.mp hmem_a with hin1 | hin2
      · exfalso
        have hR : aspectIdx a < aspectIdx e.1 :=
          (List.pairwise_append.mp hp).2.2 _ hin1 e (List.mem_cons_self _ _)
        have h1 := hl1 _ hin1
        have h2 := hleH e.1 hR
        have hscore : aspectScore (a, keywordsOf a).2 path content =
            scoreA a path content := rfl
        omega
      · rcases List.mem_cons.mp hin2 with heq2 | hin2'
        · rw [hfa, ← heq2]
        · exfalso
          have hpc := (List.pairwise_append.mp hp).2.1
          have hR : aspectIdx e.1 < aspectIdx a :=
            (List.pairwise_cons.mp hpc).1 _ hin2'
          have h1 := hl2 _ hin2'
          have h2 := hltH e.1 hR
          have hscore : aspectScore (a, keywordsOf a).2 path content =
              scoreA a path content := rfl
          omega

theorem aspect_scoring_spec_witness :
    fileAspect (toL "nav") [] = Aspect.navigation :=
  (aspect_scoring_spec (toL "nav") [] Aspect.navigation).2 (by decide)
    (by decide) (by decide) (by decide)

/-! ### Lemmas about `splitextExt` and the extension table -/

theorem toLower_eq_dot {c : Char} (h : Char.toLower c = '.') : c = '.' := by
  unfold Char.toLower at h
  simp only [] at h
  by_cases hc : c.toNat ≥ 65 ∧ c.toNat ≤ 90
  · rw [if_pos hc] at h
    exfalso
    obtain ⟨h1, h2⟩ := hc
    generalize hn : c.toNat = n at h1 h2 h
    interval_cases n <;> exact absurd h (by decide)
  · rw [if_neg hc] at h
    exact h

/-- The extension computed by `splitext` is empty or a dot followed by a
dot-free tail: it is the final suffix only. -/
theorem splitextExt_shape (name : List Char) :
    splitextExt name = [] ∨
    ∃ tail, splitextExt name = '.' :: tail ∧ '.' ∉ tail := by
  cases hl : lastIdxOf '.' name with
  | none =>
    left
    unfold splitextExt
    rw [hl]
  | some i =>
    have hs : splitextExt name =
        if ((name.take i).all fun c => c = '.') = true then []
        else name.drop i := by
      unfold splitextExt
      rw [hl]
    by_cases hall : ((name.take i).all fun c => c = '.') = true
    · rw [if_pos hall] at hs
      exact Or.inl hs
    · rw [if_neg hall] at hs
      right
      obtain ⟨hilt, hget⟩ := lastIdxOf_getElem hl
      have hgete : name[i] = '.' := by
        have := List.getElem?_eq_getElem hilt
        rw [hget] at this
        exact (Option.some_inj.mp this).symm
      have hdrop : name.drop i = '.' :: name.drop (i + 1) := by
        rw [List.drop_eq_getElem_cons hilt, hgete]
      refine ⟨name.drop (i + 1), by rw [hs, hdrop], ?_⟩
      intro hmem
      obtain ⟨j, hjlt, hj⟩ := List.getElem_of_mem hmem
      have hj? : (name.drop (i + 1))[j]? = some '.' := by
        rw [List.getElem?_eq_getElem hjlt, hj]
      have : name[i + 1 + j]? = some '.' := by
        rw [← List.getElem?_drop]
        exact hj?
      exact lastIdxOf_after hl (i + 1 + j) (by omega) this

theorem extOf_shape (p : List Char) :
    extOf p = [] ∨ ∃ tail, extOf p = '.' :: tail ∧ '.' ∉ tail := by
  unfold extOf lowerL
  rcases splitextExt_shape (baseName p) with h | ⟨tail, h, hnm⟩
  · left
    rw [h]
    rfl
  · right
    refine ⟨tail.map Char.toLower, ?_, ?_⟩
    · rw [h, List.map_cons]
      congr 1
    · intro hmem
      obtain ⟨c, hc, hcl⟩ := List.mem_map.mp hmem
      exact hnm (toLower_eq_dot hcl ▸ hc)

/-- C10: the extension-to-category lookup takes the first matching table
entry: `.js`/`.ts` files are always `script` and `.css`/`.scss` files always
`style`; no extension is ever categorised `animation` (all its extensions
are claimed by earlier entries); and the `.styled.js`/`.style.js` entries of
the `style` row can never match, because the computed extension is the final
dot-suffix only and so never contains a second dot. -/
theorem extension_lookup_spec (name : List Char) :
    ((extOf name = toL ".js" ∨ extOf name = toL ".ts") →
      fileCategory (extOf name) = some Category.script) ∧
    ((extOf name = toL ".css" ∨ extOf name = toL ".scss") →
      fileCategory (extOf name) = some Category.style) ∧
    fileCategory (extOf name) ≠ some Category.animation ∧
    extOf name ≠ toL ".styled.js" ∧ extOf name ≠ toL ".style.js" := by
  refine ⟨?_, ?_, ?_, ?_, ?_⟩
  · rintro (h | h) <;> rw [h] <;> decide
  · rintro (h | h) <;> rw [h] <;> decide
  · intro hanim
    unfold fileCategory at hanim
    rcases hfind : ui_extensions.find?
        (fun ce => ce.2.contains (extOf name)) with _ | ce
    · rw [hfind] at hanim
      cases hanim
    · rw [hfind] at hanim
      have hce1 : ce.1 = Category.animation := by
        simpa using hanim
      have hmem := List.mem_of_find?_eq_some hfind
      have hpred := List.find?_some hfind
      fin_cases hmem
      · exact absurd hce1 (by decide)
      · exact absurd hce1 (by decide)
      · exact absurd hce1 (by decide)
      · have hm4 : extOf name ∈
            [toL ".js", toL ".ts", toL ".css", toL ".scss"] :=
          List.mem_of_elem_eq_true hpred
        simp only [List.mem_cons, List.not_mem_nil, or_false] at hm4
        rcases hm4 with h | h | h | h <;> rw [h] at hfind <;>
          exact absurd hfind (by decide)
      · exact absurd hce1 (by decide)
  · intro h
    rcases extOf_shape name with h0 | ⟨tail, he, hnm⟩
    · rw [h0] at h
      exact absurd h (by decide)
    · rw [he] at h
      have htail : tail = toL "styled.js" := (List.cons.inj h).2
      apply hnm
      rw [htail]
      decide
  · intro h
    rcases extOf_shape name with h0 | ⟨tail, he, hnm⟩
    · rw [h0] at h
      exact absurd h (by decide)
    · rw [he] at h
      have htail : tail = toL "style.js" := (List.cons.inj h).2
      apply hnm
      rw [htail]
      decide

theorem extension_lookup_spec_witness :
    fileCategory (extOf (toL "anim.helpers.JS")) = some Category.script ∧
    extOf (toL "anim.helpers.JS") ≠ toL ".styled.js" :=
  ⟨(extension_lookup_spec (toL "anim.helpers.JS")).1 (Or.inl (by decide)),
   (extension_lookup_spec (toL "anim.helpers.JS")).2.2.2.1⟩

end AgenticWorkflow
